import Mathlib

/-!
Shallow embedding of the `features` crate (`src/lib.rs`).

The `features!` macro generates, per declared group, a `bitflags!`-backed
`Flags` type over `usize`, a shared word `static mut FEATURES: AtomicUsize`
initialized to `ATOMIC_USIZE_INIT` (zero), and four operations:

* `enable(flag)`  : reads the word via `FEATURES.get_mut()`, truncates it with
  `Flags::from_bits_truncate`, `insert`s the flag, and writes the bits back;
* `disable(flag)` : same, with `remove` instead of `insert`;
* `is_enabled(flag)` : `flags().contains(flag)`;
* `flags()`       : `Flags::from_bits_truncate(FEATURES.load(Relaxed))`.

`bitflags!` (0.7-era `pub flags` syntax) gives the operations used here:
`all()` is the bitwise OR of every declared value,
`from_bits_truncate(bits)` masks with `all()`,
`contains(self, other)` is `(self.bits & other.bits) == other.bits`,
`insert` is `self.bits |= other.bits`, and
`remove` is `self.bits &= !other.bits` (clears `other`'s bits).

A `Flags` value and the shared word are modelled as `Nat`; `usize` complement
followed by `&` is the bitwise difference `Nat.ldiff` (identical on every bit
below the word width, and all values involved stay below it).

The sequential operations are pure functions of the shared word.  For the
concurrency claim, `enable`'s body is additionally split at its read of
`FEATURES` into a read step and a write-back step, exactly the two plain
(non-atomic) memory accesses `FEATURES.get_mut()` performs, and interleavings
of two callers are modelled by schedules.
-/

namespace Features

/-- A feature group as declared by `features! { mod m { const F = v, ... } }`:
the list of declared flag bit values. -/
structure Group where
  decls : List Nat

/-- `Flags::all()`: the bitwise OR of every declared flag value. -/
def Group.all (g : Group) : Nat := g.decls.foldl (· ||| ·) 0

/-- `Flags::from_bits_truncate(bits)`: keep only bits of declared flags,
i.e. mask with `all()`. -/
def Group.fromBitsTruncate (g : Group) (bits : Nat) : Nat := bits &&& g.all

/-- `Flags::contains(self, other)`: `(self.bits & other.bits) == other.bits`. -/
def contains (self other : Nat) : Bool := (self &&& other) == other

/-- `Flags::insert(self, other)`: `self.bits |= other.bits`. -/
def insert (self other : Nat) : Nat := self ||| other

/-- `Flags::remove(self, other)`: `self.bits &= !other.bits`, clearing every
bit of `other` (bitwise difference). -/
def remove (self other : Nat) : Nat := Nat.ldiff self other

/-- The initial value of `static mut FEATURES: AtomicUsize = ATOMIC_USIZE_INIT`:
the all-zero word. -/
def initState : Nat := 0

/-- `enable(flag)`, as a function of the shared word `features`:
truncate the current word, insert the flag, write the bits back. -/
def Group.enable (g : Group) (flag features : Nat) : Nat :=
  insert (g.fromBitsTruncate features) flag

/-- `disable(flag)`, as a function of the shared word `features`:
truncate the current word, remove the flag, write the bits back. -/
def Group.disable (g : Group) (flag features : Nat) : Nat :=
  remove (g.fromBitsTruncate features) flag

/-- `flags()`: `Flags::from_bits_truncate(FEATURES.load(Relaxed))`. -/
def Group.flags (g : Group) (features : Nat) : Nat :=
  g.fromBitsTruncate features

/-- `is_enabled(flag)`: `flags().contains(flag)`. -/
def Group.is_enabled (g : Group) (flag features : Nat) : Bool :=
  contains (g.flags features) flag

/- ### Bit-level helper lemmas -/

theorem foldl_lor_testBit (l : List Nat) (acc i : Nat) :
    (l.foldl (· ||| ·) acc).testBit i
      = (acc.testBit i || l.any (fun f => f.testBit i)) := by
  induction l generalizing acc with
  | nil => simp
  | cons x xs ih =>
      simp [List.foldl, ih, Nat.testBit_lor, Bool.or_assoc]

/-- Bit `i` of `all()` is set iff some declared flag has bit `i` set. -/
theorem Group.testBit_all (g : Group) (i : Nat) :
    g.all.testBit i = g.decls.any (fun f => f.testBit i) := by
  simp [Group.all, foldl_lor_testBit]

/-- A declared flag's bits all lie inside `all()`. -/
theorem Group.land_all_of_mem (g : Group) {f : Nat} (hf : f ∈ g.decls) :
    f &&& g.all = f := by
  apply Nat.eq_of_testBit_eq
  intro i
  rw [Nat.testBit_land, Group.testBit_all]
  cases h : f.testBit i with
  | false => simp
  | true =>
      simp only [Bool.true_and]
      exact List.any_eq_true.mpr ⟨f, hf, h⟩

/-- Two distinct powers of two share no bit. -/
theorem land_eq_zero_of_two_pow_ne {a b : Nat} (ha : ∃ j, a = 2 ^ j)
    (hb : ∃ k, b = 2 ^ k) (hne : a ≠ b) : a &&& b = 0 := by
  obtain ⟨j, rfl⟩ := ha
  obtain ⟨k, rfl⟩ := hb
  have hjk : j ≠ k := fun h => hne (by rw [h])
  apply Nat.eq_of_testBit_eq
  intro i
  rw [Nat.testBit_land, Nat.zero_testBit]
  rcases eq_or_ne j i with rfl | hj
  · rw [Nat.testBit_two_pow_of_ne (fun h => hjk h.symm)]
    simp
  · rw [Nat.testBit_two_pow_of_ne hj]
    simp

/-- What `flags()` reads back after an `enable` write. -/
theorem Group.flags_enable (g : Group) (f s : Nat) :
    g.flags (g.enable f s) = (s &&& g.all) ||| (f &&& g.all) := by
  apply Nat.eq_of_testBit_eq
  intro i
  simp only [Group.flags, Group.enable, Group.fromBitsTruncate, insert,
    Nat.testBit_land, Nat.testBit_lor]
  cases s.testBit i <;> cases f.testBit i <;> cases g.all.testBit i <;> rfl

/-- What `flags()` reads back after a `disable` write. -/
theorem Group.flags_disable (g : Group) (f s : Nat) :
    g.flags (g.disable f s) = Nat.ldiff (s &&& g.all) f := by
  apply Nat.eq_of_testBit_eq
  intro i
  simp only [Group.flags, Group.disable, Group.fromBitsTruncate, remove,
    Nat.testBit_land, Nat.testBit_ldiff]
  cases s.testBit i <;> cases f.testBit i <;> cases g.all.testBit i <;> rfl

/-- `contains` is the superset test on bits. -/
theorem contains_iff_testBit (x f : Nat) :
    contains x f = true ↔ ∀ i, f.testBit i = true → x.testBit i = true := by
  unfold contains
  rw [beq_iff_eq]
  constructor
  · intro h i hfi
    have := congrArg (fun n => Nat.testBit n i) h
    simp only [Nat.testBit_land] at this
    rw [hfi, Bool.and_true] at this
    exact this
  · intro h
    apply Nat.eq_of_testBit_eq
    intro i
    rw [Nat.testBit_land]
    cases hfi : f.testBit i with
    | false => simp
    | true => simp [h i hfi]

/- ### Sequences of mutations (for the declared-bits invariant) -/

/-- A mutation of the group word: one `enable` or `disable` call. -/
inductive Op where
  | enable (flag : Nat)
  | disable (flag : Nat)

/-- The flag argument of a mutation. -/
def Op.flagOf : Op → Nat
  | .enable f => f
  | .disable f => f

/-- Apply one mutation to the shared word. -/
def Group.applyOp (g : Group) (s : Nat) : Op → Nat
  | .enable f => g.enable f s
  | .disable f => g.disable f s

/-- Run a sequence of `enable`/`disable` calls from the initial all-zero word. -/
def Group.runOps (g : Group) (ops : List Op) : Nat :=
  ops.foldl g.applyOp initState

/- ### Non-atomic read-modify-write model of concurrent `enable` calls

`enable` obtains the shared word through `FEATURES.get_mut()`: a plain read of
the word followed (after computing the new bits) by a plain write of the word.
There is no compare-and-swap and no retry loop, so between one caller's read
and write another caller may read and write the same word.  Two concurrent
`enable` calls are modelled by scheduling these two micro-steps per thread in
any order that respects each thread's program order (read before write). -/

/-- Shared word plus each thread's progress through `enable`'s body:
`pending k = some r` means thread `k` has read `r` from `FEATURES` but not yet
written back; `done k` means its call returned. -/
structure RaceState where
  word : Nat
  pending0 : Option Nat
  pending1 : Option Nat
  done0 : Bool
  done1 : Bool

/-- One scheduler step: run the next micro-step (read or write-back) of the
chosen thread (`false` = thread 0 enabling `f0`, `true` = thread 1 enabling
`f1`).  The write-back stores `insert (from_bits_truncate r) fk` where `r` is
the value that thread read, exactly as the code computes it. -/
def raceStep (g : Group) (f0 f1 : Nat) (st : RaceState) (tid : Bool) : RaceState :=
  if tid then
    if st.done1 then st
    else
      match st.pending1 with
      | none => { st with pending1 := some st.word }
      | some r => { st with word := g.enable f1 r, done1 := true }
  else
    if st.done0 then st
    else
      match st.pending0 with
      | none => { st with pending0 := some st.word }
      | some r => { st with word := g.enable f0 r, done0 := true }

/-- Run a schedule of micro-steps from the initial all-zero word with neither
thread started. -/
def raceRun (g : Group) (f0 f1 : Nat) (sched : List Bool) : RaceState :=
  sched.foldl (raceStep g f0 f1) ⟨initState, none, none, false, false⟩

/- ### Claims -/

/-- C1: for a declared (single-bit, hence nonzero) flag `f`, `enable(f)`
followed by `is_enabled(f)` with no intervening mutation returns `true`, and
`disable(f)` followed by `is_enabled(f)` returns `false`, from any current
word `s`. -/
theorem C1_enable_disable_then_query (g : Group) (f s : Nat)
    (hf : f ∈ g.decls) (hbit : ∃ k, f = 2 ^ k) :
    g.is_enabled f (g.enable f s) = true ∧
    g.is_enabled f (g.disable f s) = false := by
  constructor
  · unfold Group.is_enabled
    rw [Group.flags_enable, g.land_all_of_mem hf, contains_iff_testBit]
    intro i hfi
    rw [Nat.testBit_lor, hfi, Bool.or_true]
  · obtain ⟨k, hk⟩ := hbit
    unfold Group.is_enabled
    rw [Group.flags_disable]
    have h0 : Nat.ldiff (s &&& g.all) f &&& f = 0 := by
      apply Nat.eq_of_testBit_eq
      intro i
      simp only [Nat.testBit_land, Nat.testBit_ldiff, Nat.zero_testBit]
      cases f.testBit i <;> simp
    unfold contains
    rw [h0]
    have hne : (0 : Nat) ≠ f := by
      rw [hk]
      exact (pow_pos (by norm_num) k).ne
    simp [hne]

/-- Witness for C1 at the documented example group `Alpha = 0b01, Beta = 0b10`. -/
theorem C1_enable_disable_then_query_witness :
    (Group.mk [1, 2]).is_enabled 1 ((Group.mk [1, 2]).enable 1 0) = true ∧
    (Group.mk [1, 2]).is_enabled 1 ((Group.mk [1, 2]).disable 1 0) = false :=
  C1_enable_disable_then_query (Group.mk [1, 2]) 1 0 (by decide) ⟨0, rfl⟩

/-- C2: the `FEATURES` word starts as the all-zero word
(`ATOMIC_USIZE_INIT`), and in that fresh state `is_enabled(f)` is `false` for
every declared (single-bit, hence nonzero) flag `f`. -/
theorem C2_fresh_group_all_disabled (g : Group) (f : Nat)
    (_hf : f ∈ g.decls) (hbit : ∃ k, f = 2 ^ k) :
    initState = 0 ∧ g.is_enabled f initState = false := by
  refine ⟨rfl, ?_⟩
  obtain ⟨k, hk⟩ := hbit
  unfold Group.is_enabled Group.flags Group.fromBitsTruncate contains initState
  rw [Nat.zero_and, Nat.zero_and]
  have hne : (0 : Nat) ≠ f := by
    rw [hk]
    exact (pow_pos (by norm_num) k).ne
  simp [hne]

/-- Witness for C2 at the documented example group. -/
theorem C2_fresh_group_all_disabled_witness :
    initState = 0 ∧ (Group.mk [1, 2]).is_enabled 1 initState = false :=
  C2_fresh_group_all_disabled (Group.mk [1, 2]) 1 (by decide) ⟨0, rfl⟩

/-- C3 fails on the code: `enable` is not a compare-and-retry loop but a plain
read followed by a plain write (`FEATURES.get_mut()`), so an interleaving of
two concurrent `enable` calls loses an update.  In the group
`Alpha = 0b01, Beta = 0b10`, with thread 0 enabling `Alpha` and thread 1
enabling `Beta` from the initial word, the schedule read0, read1, write0,
write1 completes both calls yet leaves the word at `0b10`: `Alpha` is lost and
`is_enabled(Alpha)` is `false`, contradicting "all N flags enabled, no lost
updates". -/
theorem C3_lost_update_interleaving :
    ((raceRun (Group.mk [1, 2]) 1 2 [false, true, false, true]).done0 = true ∧
     (raceRun (Group.mk [1, 2]) 1 2 [false, true, false, true]).done1 = true) ∧
    (raceRun (Group.mk [1, 2]) 1 2 [false, true, false, true]).word = 2 ∧
    (Group.mk [1, 2]).is_enabled 1
      (raceRun (Group.mk [1, 2]) 1 2 [false, true, false, true]).word = false := by
  decide

/-- C4: `enable(f); enable(f)` leaves the same word as `enable(f)` alone, for
every flag and every starting word; same for `disable`; and enabling an
already-enabled flag leaves the word unchanged (on words satisfying the
declared-bits invariant, which holds for every reachable word by C9). -/
theorem C4_enable_disable_idempotent (g : Group) (f s : Nat) :
    g.enable f (g.enable f s) = g.enable f s ∧
    g.disable f (g.disable f s) = g.disable f s ∧
    (s &&& g.all = s → g.is_enabled f s = true → g.enable f s = s) := by
  refine ⟨?_, ?_, ?_⟩
  · apply Nat.eq_of_testBit_eq
    intro i
    simp only [Group.enable, Group.fromBitsTruncate, insert,
      Nat.testBit_lor, Nat.testBit_land]
    cases s.testBit i <;> cases f.testBit i <;> cases g.all.testBit i <;> rfl
  · apply Nat.eq_of_testBit_eq
    intro i
    simp only [Group.disable, Group.fromBitsTruncate, remove,
      Nat.testBit_ldiff, Nat.testBit_land]
    cases s.testBit i <;> cases f.testBit i <;> cases g.all.testBit i <;> rfl
  · intro hinv hen
    unfold Group.is_enabled Group.flags Group.fromBitsTruncate at hen
    rw [hinv, contains_iff_testBit] at hen
    unfold Group.enable Group.fromBitsTruncate insert
    rw [hinv]
    apply Nat.eq_of_testBit_eq
    intro i
    rw [Nat.testBit_lor]
    cases hfi : f.testBit i with
    | false => simp
    | true => simp [hen i hfi]

/-- Witness for C4: in the example group, `Alpha` enabled twice equals once,
and enabling the already-enabled `Alpha` in word `0b01` leaves it unchanged. -/
theorem C4_enable_disable_idempotent_witness :
    (Group.mk [1, 2]).enable 1 ((Group.mk [1, 2]).enable 1 1)
      = (Group.mk [1, 2]).enable 1 1 ∧
    (Group.mk [1, 2]).enable 1 1 = 1 :=
  ⟨(C4_enable_disable_idempotent (Group.mk [1, 2]) 1 1).1,
   (C4_enable_disable_idempotent (Group.mk [1, 2]) 1 1).2.2 (by decide) (by decide)⟩

/-- C5: for distinct declared single-bit flags `A ≠ B`, an `enable(A)` or
`disable(A)` never changes what `is_enabled(B)` reports. -/
theorem C5_independence (g : Group) (A B s : Nat)
    (_hA : A ∈ g.decls) (_hB : B ∈ g.decls)
    (hAbit : ∃ j, A = 2 ^ j) (hBbit : ∃ k, B = 2 ^ k) (hne : A ≠ B) :
    g.is_enabled B (g.enable A s) = g.is_enabled B s ∧
    g.is_enabled B (g.disable A s) = g.is_enabled B s := by
  have hdisj : A &&& B = 0 := land_eq_zero_of_two_pow_ne hAbit hBbit hne
  have hbit0 : ∀ i, (A.testBit i && B.testBit i) = false := by
    intro i
    have h := congrArg (fun n => Nat.testBit n i) hdisj
    simpa [Nat.testBit_land] using h
  have key_en : g.flags (g.enable A s) &&& B = g.flags s &&& B := by
    rw [Group.flags_enable]
    apply Nat.eq_of_testBit_eq
    intro i
    have hd := hbit0 i
    simp only [Group.flags, Group.fromBitsTruncate, Nat.testBit_land, Nat.testBit_lor]
    cases hA1 : A.testBit i <;> cases hB1 : B.testBit i <;>
      cases s.testBit i <;> cases g.all.testBit i <;> simp_all
  have key_dis : g.flags (g.disable A s) &&& B = g.flags s &&& B := by
    rw [Group.flags_disable]
    apply Nat.eq_of_testBit_eq
    intro i
    have hd := hbit0 i
    simp only [Group.flags, Group.fromBitsTruncate, Nat.testBit_land, Nat.testBit_ldiff]
    cases hA1 : A.testBit i <;> cases hB1 : B.testBit i <;>
      cases s.testBit i <;> cases g.all.testBit i <;> simp_all
  constructor
  · unfold Group.is_enabled contains
    rw [key_en]
  · unfold Group.is_enabled contains
    rw [key_dis]

/-- Witness for C5 with `A = Alpha = 0b01`, `B = Beta = 0b10`. -/
theorem C5_independence_witness :
    (Group.mk [1, 2]).is_enabled 2 ((Group.mk [1, 2]).enable 1 0)
      = (Group.mk [1, 2]).is_enabled 2 0 ∧
    (Group.mk [1, 2]).is_enabled 2 ((Group.mk [1, 2]).disable 1 0)
      = (Group.mk [1, 2]).is_enabled 2 0 :=
  C5_independence (Group.mk [1, 2]) 1 2 0 (by decide) (by decide)
    ⟨0, rfl⟩ ⟨1, rfl⟩ (by decide)

/-- C6: `from_bits_truncate` of an arbitrary raw integer is the raw bits
intersected with the union of the declared flag values, and bit-by-bit a bit
survives exactly when some declared flag carries it — bits of no declared flag
are cleared, as defined behavior with no error. -/
theorem C6_truncation (g : Group) (raw : Nat) :
    g.fromBitsTruncate raw = raw &&& g.all ∧
    ∀ i, (g.fromBitsTruncate raw).testBit i
        = (raw.testBit i && g.decls.any (fun f => f.testBit i)) := by
  refine ⟨rfl, fun i => ?_⟩
  rw [Group.fromBitsTruncate, Nat.testBit_land, Group.testBit_all]

/-- C7: `is_enabled(f)` equals the membership test `flags().contains(f)` on
the snapshot returned by `flags()`, with no intervening mutation — in the code
`is_enabled` is exactly that composition. -/
theorem C7_snapshot_consistency (g : Group) (f s : Nat) :
    g.is_enabled f s = contains (g.flags s) f := rfl

/-- C8: every operation is total — for every group, flag and word, `enable`,
`disable`, `is_enabled` and `flags` each produce a result; in the source none
of them has a `Result`/`Option` return, a panic, or any failure branch, so the
embedding is by plain total functions. -/
theorem C8_operations_total (g : Group) (f s : Nat) :
    (∃ w, g.enable f s = w) ∧ (∃ w, g.disable f s = w) ∧
    (∃ b, g.is_enabled f s = b) ∧ (∃ w, g.flags s = w) :=
  ⟨⟨_, rfl⟩, ⟨_, rfl⟩, ⟨_, rfl⟩, ⟨_, rfl⟩⟩

/-- C9: starting from the all-zero word, after any sequence of `enable` and
`disable` calls whose flag arguments are valid `Flags` values (bits within
`all()`, the invariant of every `Flags` the caller can construct), the stored
word carries only declared bits; and through `flags()` an undeclared bit can
never be observed set, for any sequence at all. -/
theorem C9_declared_bits_invariant (g : Group) (ops : List Op)
    (hv : ∀ op ∈ ops, op.flagOf &&& g.all = op.flagOf) :
    g.runOps ops &&& g.all = g.runOps ops ∧
    ∀ i, g.all.testBit i = false → (g.flags (g.runOps ops)).testBit i = false := by
  have main : ∀ (l : List Op) (s : Nat),
      (∀ op ∈ l, op.flagOf &&& g.all = op.flagOf) → s &&& g.all = s →
      (l.foldl g.applyOp s) &&& g.all = l.foldl g.applyOp s := by
    intro l
    induction l with
    | nil => intro s _ hs; simpa using hs
    | cons op rest ih =>
        intro s hvl hs
        rw [List.foldl_cons]
        apply ih _ (fun o ho => hvl o (List.mem_cons_of_mem _ ho))
        have hop := hvl op (List.mem_cons_self _ _)
        cases op with
        | enable f =>
            simp only [Op.flagOf] at hop
            apply Nat.eq_of_testBit_eq
            intro i
            have hfi := congrArg (fun n => Nat.testBit n i) hop
            simp only [Nat.testBit_land] at hfi
            simp only [Group.applyOp, Group.enable, Group.fromBitsTruncate, insert,
              Nat.testBit_land, Nat.testBit_lor]
            cases hf1 : f.testBit i <;> cases s.testBit i <;>
              cases ha1 : g.all.testBit i <;> simp_all
        | disable f =>
            apply Nat.eq_of_testBit_eq
            intro i
            simp only [Group.applyOp, Group.disable, Group.fromBitsTruncate, remove,
              Nat.testBit_land, Nat.testBit_ldiff]
            cases f.testBit i <;> cases s.testBit i <;> cases g.all.testBit i <;> rfl
  have h1 : g.runOps ops &&& g.all = g.runOps ops :=
    main ops initState hv (by simp [initState])
  refine ⟨h1, fun i hi => ?_⟩
  simp only [Group.flags, Group.fromBitsTruncate, Nat.testBit_land, hi, Bool.and_false]

/-- Witness for C9: run `enable(Alpha); disable(Beta)` in the example group. -/
theorem C9_declared_bits_invariant_witness :
    (Group.mk [1, 2]).runOps [Op.enable 1, Op.disable 2] &&& (Group.mk [1, 2]).all
      = (Group.mk [1, 2]).runOps [Op.enable 1, Op.disable 2] :=
  (C9_declared_bits_invariant (Group.mk [1, 2]) [Op.enable 1, Op.disable 2]
    (by decide)).1

/-- C10: `is_enabled` on a combined value `c` (an OR of declared flags, so
`c`'s bits lie within `all()`) is the superset test — `true` iff every bit of
`c` is set in the current word, not when merely some bit is; `enable(c)` sets
every bit of `c` and `disable(c)` clears every bit of `c` in one call. -/
theorem C10_conjunctive_membership (g : Group) (c s : Nat) (hc : c &&& g.all = c) :
    (g.is_enabled c s = true ↔ ∀ i, c.testBit i = true → (g.flags s).testBit i = true) ∧
    (∀ i, c.testBit i = true → (g.flags (g.enable c s)).testBit i = true) ∧
    (∀ i, c.testBit i = true → (g.flags (g.disable c s)).testBit i = false) := by
  have hcbit : ∀ i, c.testBit i = true → g.all.testBit i = true := by
    intro i hci
    have h := congrArg (fun n => Nat.testBit n i) hc
    simp only [Nat.testBit_land] at h
    rw [hci, Bool.true_and] at h
    exact h
  refine ⟨contains_iff_testBit _ _, fun i hci => ?_, fun i hci => ?_⟩
  · rw [Group.flags_enable]
    simp [Nat.testBit_lor, Nat.testBit_land, hci, hcbit i hci]
  · rw [Group.flags_disable]
    simp [Nat.testBit_ldiff, hci]

/-- Witness for C10: enabling the combined value `Alpha | Beta = 0b11` in the
example group sets bit 0. -/
theorem C10_conjunctive_membership_witness :
    ((Group.mk [1, 2]).flags ((Group.mk [1, 2]).enable 3 0)).testBit 0 = true :=
  (C10_conjunctive_membership (Group.mk [1, 2]) 3 0 (by decide)).2.1 0 (by decide)

end Features
